import Mathlib

/-!
# Verification of the repository relevance analysis and ranking engine

Shallow embedding of `src/mcp/coding.py`: the content sampler
(`sample_repository_code`, `find_readme_files`, `read_readme_summary`), the
single-candidate analyzer (`analyze_repository_for_task`) and the
multi-candidate ranker with its inline relevance scorer
(`find_best_repositories_for_task`).

Text is modelled as `List Char` (one entry per code point, matching Python
`len`/indexing).  Python's `str.lower`/`str.upper` are modelled on the ASCII
range (the only range exercised by the fixed tables and markers of the
source).  The file system behind `os.listdir`/`os.walk`/`open` is modelled as
an explicit environment: a list of repositories, each a list of directories
in walk order, each directory holding files with optional text content
(`none` models content that raises `UnicodeDecodeError`).
-/

set_option maxRecDepth 100000

/-- Text as a list of characters, matching Python string semantics
(length, slicing and `count` act on code points). -/
abbrev Str := List Char

/-- The upper-case/lower-case ASCII letter pairs. -/
def casePairs : List (Char × Char) :=
  [('A', 'a'), ('B', 'b'), ('C', 'c'), ('D', 'd'), ('E', 'e'), ('F', 'f'),
   ('G', 'g'), ('H', 'h'), ('I', 'i'), ('J', 'j'), ('K', 'k'), ('L', 'l'),
   ('M', 'm'), ('N', 'n'), ('O', 'o'), ('P', 'p'), ('Q', 'q'), ('R', 'r'),
   ('S', 's'), ('T', 't'), ('U', 'u'), ('V', 'v'), ('W', 'w'), ('X', 'x'),
   ('Y', 'y'), ('Z', 'z')]

/-- Python's `str.lower` restricted to ASCII, character by character. -/
def lowerC (c : Char) : Char :=
  match casePairs.find? fun p => p.1 = c with
  | some p => p.2
  | none => c

/-- Python's `str.upper` restricted to ASCII, character by character. -/
def upperC (c : Char) : Char :=
  match casePairs.find? fun p => p.2 = c with
  | some p => p.1
  | none => c

/-- `str.lower` on a whole string. -/
def lowerStr (s : Str) : Str := s.map lowerC

/-- `str.upper` on a whole string. -/
def upperStr (s : Str) : Str := s.map upperC

/-- The whitespace characters recognised by Python's `str.split()` and
`str.strip()` (ASCII range). -/
def isSpaceC (c : Char) : Bool :=
  c = ' ' || c = '\t' || c = '\n' || c = '\x0d' || c = '\x0b' || c = '\x0c'

/-- Python's `str.startswith`: `startsWithB p s` is true when `p` is a
prefix of `s`. -/
def startsWithB : Str → Str → Bool
  | [], _ => true
  | _ :: _, [] => false
  | p :: ps, c :: cs => if p = c then startsWithB ps cs else false

/-- Python's `in` operator on strings: substring containment
(the empty string is contained in every string). -/
def containsSub (p : Str) : Str → Bool
  | [] => p.isEmpty
  | c :: cs => startsWithB p (c :: cs) || containsSub p cs

/-- Helper for `countOcc`: scans the text left to right; a positive skip
counter jumps over the remainder of a previous match, making the count
non-overlapping exactly as Python's `str.count`. -/
def countOccAux (p : Str) : Str → Nat → Nat
  | [], _ => if p = [] then 1 else 0
  | c :: cs, 0 =>
      if startsWithB p (c :: cs) then 1 + countOccAux p cs (p.length - 1)
      else countOccAux p cs 0
  | _ :: cs, k + 1 => countOccAux p cs k

/-- Python's `str.count`: number of non-overlapping occurrences of `p`,
scanning from the left. -/
def countOcc (p s : Str) : Nat := countOccAux p s 0

/-- Helper for `splitWS`; `acc` holds the (reversed) token being read. -/
def splitWSAux : Str → Str → List Str
  | [], acc => if acc = [] then [] else [acc.reverse]
  | c :: cs, acc =>
      if isSpaceC c then
        if acc = [] then splitWSAux cs [] else acc.reverse :: splitWSAux cs []
      else splitWSAux cs (c :: acc)

/-- Python's `str.split()` with no argument: split on runs of whitespace,
discarding empty tokens. -/
def splitWS (s : Str) : List Str := splitWSAux s []

/-- Helper for `splitNl`; `acc` holds the (reversed) current line. -/
def splitNlAux : Str → Str → List Str
  | [], acc => [acc.reverse]
  | c :: cs, acc =>
      if c = '\n' then acc.reverse :: splitNlAux cs [] else splitNlAux cs (c :: acc)

/-- Python's `str.split('\n')`: split on every newline, keeping empty lines. -/
def splitNl (s : Str) : List Str := splitNlAux s []

/-- Python's `str.strip()`: drop whitespace from both ends. -/
def pyStrip (s : Str) : Str :=
  ((s.dropWhile isSpaceC).reverse.dropWhile isSpaceC).reverse

/-- Decimal rendering of a natural number, as Python's `f"{n}"`. -/
def natStr (n : Nat) : Str := Nat.toDigits 10 n

/-- Python's `repr` of a list of strings, as produced by
`f"found {matching_keywords}"` in the source. -/
def pyReprList (l : List Str) : Str :=
  "[".data ++ List.intercalate (", ".data) (l.map fun kw => "'".data ++ kw ++ "'".data) ++ "]".data

/-- Lexicographic strict order on strings by code point, as Python `<`. -/
def strLtB : Str → Str → Bool
  | [], [] => false
  | [], _ :: _ => true
  | _ :: _, [] => false
  | a :: as, b :: bs => if a < b then true else if a = b then strLtB as bs else false

/-- Insert a string into an ascending list (used to model Python `sorted`). -/
def insertStrAsc (x : Str) : List Str → List Str
  | [] => [x]
  | y :: ys => if strLtB x y then x :: y :: ys else y :: insertStrAsc x ys

/-- Python's `sorted` on a list of (distinct) strings. -/
def sortStrsAsc (l : List Str) : List Str :=
  l.foldl (fun acc x => insertStrAsc x acc) []

/-! ## File-system model

`os.walk` over a repository is modelled as the repository's list of
directories in traversal order (root first); each directory records its path
components relative to the repository root and its files in listing order.
A file's `content` is `some text` when `open(...).read()` succeeds and
`none` when decoding raises `UnicodeDecodeError`.  The coding directory
`/mnt/q/` is the environment's list of repositories in `os.listdir` order;
a repository name not in the list models a directory that does not exist. -/

/-- One file on disk: base name and (optionally decodable) content. -/
structure FileEntry where
  name : Str
  content : Option Str
deriving DecidableEq

/-- One directory of a repository tree: its path components relative to the
repository root (`[]` for the root itself) and its files in listing order. -/
structure DirEntry where
  parts : List Str
  files : List FileEntry
deriving DecidableEq

/-- One repository: its directory name under `/mnt/q/` and its directory
tree in `os.walk` order. -/
structure Repo where
  name : Str
  dirs : List DirEntry
deriving DecidableEq

/-- The coding directory: repositories in `os.listdir` order. -/
structure Env where
  repos : List Repo
deriving DecidableEq

/-- `os.path.join`/`os.path.relpath`: path of a file relative to the
repository root. -/
def relPath (parts : List Str) (fname : Str) : Str :=
  List.intercalate ("/".data) (parts ++ [fname])

/-- Resolving a repository name, as `os.path.exists` + `os.path.isdir` on
`os.path.join('/mnt/q/', repo_name)`. -/
def lookupRepo (env : Env) (rn : Str) : Option Repo :=
  env.repos.find? fun r => r.name = rn

/-- Resolving a relative file path inside a repository, as `os.path.exists`
on the joined path. -/
def findFile (r : Repo) (path : Str) : Option FileEntry :=
  r.dirs.findSome? fun d => d.files.find? fun f => relPath d.parts f.name = path

/-- `list_coding_directories`: repository names in listing order. -/
def listCodingDirectories (env : Env) : List Str := env.repos.map Repo.name

/-- `read_repository_file`: the file's text, or the literal placeholder
messages for a missing path or undecodable (binary) content. -/
def readRepositoryFile (env : Env) (rn path : Str) : Str :=
  match lookupRepo env rn with
  | none => "File '".data ++ path ++ "' does not exist in repository '".data ++ rn ++ "'.".data
  | some r =>
    match findFile r path with
    | none => "File '".data ++ path ++ "' does not exist in repository '".data ++ rn ++ "'.".data
    | some f =>
      match f.content with
      | none => "File '".data ++ path ++ "' appears to be a binary file and cannot be read as text.".data
      | some c => c

/-- The three patterns of `find_readme_files`; the loop iterates over them
but never uses the pattern value in its condition. -/
def readmePatterns : List Str := ["README*".data, "readme*".data, "Readme*".data]

/-- Body of the `for root, dirs, files in os.walk(...)` loop of
`find_readme_files`: for each pattern, scan the directory's files and append
the first whose upper-cased name starts with `README`, then `break`. -/
def readmeDirHits (d : DirEntry) : List Str :=
  readmePatterns.flatMap fun _pat =>
    match d.files.find? (fun f => startsWithB ("README".data) (upperStr f.name)) with
    | some f => [relPath d.parts f.name]
    | none => []

/-- `find_readme_files`: empty for a missing repository, else the per-walk-step
hits over the whole (unpruned) tree. -/
def findReadmeFiles (env : Env) (rn : Str) : List Str :=
  match lookupRepo env rn with
  | none => []
  | some r => r.dirs.flatMap readmeDirHits

/-- The preview of a README file: first 500 characters, with `...` appended
when the content is longer. -/
def readmePreview (content : Str) : Str :=
  content.take 500 ++ (if 500 < content.length then "...".data else [])

/-- The README files actually previewed by `read_readme_summary` (first 3 of
the list, minus those whose read-back starts with `File` or `Error`), each
with its preview text. -/
def readmePreviewList (env : Env) (rn : Str) : List (Str × Str) :=
  ((findReadmeFiles env rn).take 3).filterMap fun rf =>
    let content := readRepositoryFile env rn rf
    if !startsWithB ("File".data) content && !startsWithB ("Error".data) content then
      some (rf, readmePreview content)
    else none

/-- `read_readme_summary`: header plus one block per previewed README file. -/
def readReadmeSummary (env : Env) (rn : Str) : Str :=
  if findReadmeFiles env rn = [] then
    "No README files found in repository '".data ++ rn ++ "'.".data
  else
    "README files found in '".data ++ rn ++ "':\n\n".data ++
      ((readmePreviewList env rn).map fun fp =>
        "=== ".data ++ fp.1 ++ " ===\n".data ++ fp.2 ++ "\n\n".data).flatten

/-- The `code_extensions` table: extension (with dot, lower case) to
technology label. -/
def codeExtensions : List (Str × Str) :=
  [ (".py".data, "Python".data), (".js".data, "JavaScript".data),
    (".ts".data, "TypeScript".data), (".java".data, "Java".data),
    (".cpp".data, "C++".data), (".c".data, "C".data),
    (".cs".data, "C#".data), (".go".data, "Go".data),
    (".rs".data, "Rust".data), (".php".data, "PHP".data),
    (".rb".data, "Ruby".data), (".swift".data, "Swift".data),
    (".kt".data, "Kotlin".data), (".scala".data, "Scala".data),
    (".sh".data, "Shell Script".data), (".yml".data, "YAML".data),
    (".yaml".data, "YAML".data), (".json".data, "JSON".data),
    (".xml".data, "XML".data), (".html".data, "HTML".data),
    (".css".data, "CSS".data), (".scss".data, "SCSS".data),
    (".sass".data, "SASS".data), (".vue".data, "Vue.js".data),
    (".jsx".data, "React JSX".data), (".tsx".data, "React TypeScript".data) ]

/-- `os.path.splitext(file)[1]`: the suffix from the last dot, where leading
dots of the base name never start an extension. -/
def splitextExt (fname : Str) : Str :=
  let rest := fname.dropWhile (fun c => c = '.')
  let tailRev := rest.reverse.takeWhile (fun c => !(c = '.'))
  if tailRev.length = rest.length then [] else '.' :: tailRev.reverse

/-- The `excluded_dirs` list of `sample_repository_code`. -/
def excludedDirs : List Str :=
  [".git".data, ".vscode".data, "__pycache__".data, "node_modules".data,
   ".next".data, "dist".data, "build".data]

/-- Directories reached by `sample_repository_code`'s walk after the
`dirs[:]` pruning: those with no excluded component on their path. -/
def visitedDirs (r : Repo) : List DirEntry :=
  r.dirs.filter fun d => d.parts.all fun comp => !(excludedDirs.contains comp)

/-- The `(relative path, language)` pairs collected by
`sample_repository_code`'s walk, in traversal order. -/
def codeFilesOf (r : Repo) : List (Str × Str) :=
  (visitedDirs r).flatMap fun d =>
    d.files.filterMap fun f =>
      match codeExtensions.find? (fun el => el.1 = lowerStr (splitextExt f.name)) with
      | some el => some (relPath d.parts f.name, el.2)
      | none => none

/-- The preview of a sampled code file: first 200 characters stripped, with
`...` appended when the content is longer. -/
def codePreview (content : Str) : Str :=
  pyStrip (content.take 200) ++ (if 200 < content.length then "...".data else [])

/-- The code files actually previewed by `sample_repository_code` for a given
`max_files` (first `max_files` collected files, minus those whose read-back
starts with `File` or `Error`), each with its language and preview text. -/
def sampledPreviews (env : Env) (r : Repo) (maxFiles : Nat) : List (Str × Str × Str) :=
  ((codeFilesOf r).take maxFiles).filterMap fun pl =>
    let content := readRepositoryFile env r.name pl.1
    if !startsWithB ("File".data) content && !startsWithB ("Error".data) content then
      some (pl.1, pl.2, codePreview content)
    else none

/-- `', '.join(sorted(tech_stack))` where `tech_stack` is the set of labels
of the collected files. -/
def techStackLine (r : Repo) : Str :=
  List.intercalate (", ".data) (sortStrsAsc ((codeFilesOf r).map Prod.snd).eraseDups)

/-- `sample_repository_code`: existence message, no-code-files message, or
the analysis summary with tech stack, file count and previews. -/
def sampleRepositoryCode (env : Env) (rn : Str) (maxFiles : Nat) : Str :=
  match lookupRepo env rn with
  | none => "Repository '".data ++ rn ++ "' does not exist.".data
  | some r =>
    if codeFilesOf r = [] then
      "No code files found in repository '".data ++ rn ++ "'.".data
    else
      "Repository '".data ++ rn ++ "' Analysis:\n\n".data ++
      "Tech Stack: ".data ++ techStackLine r ++ "\n".data ++
      "Total code files: ".data ++ natStr (codeFilesOf r).length ++ "\n\n".data ++
      ((sampledPreviews env r maxFiles).map fun plp =>
        "=== ".data ++ plp.1 ++ " (".data ++ plp.2.1 ++ ") ===\n".data ++ plp.2.2 ++ "\n\n".data).flatten

/-- The `tech_keywords` table of `analyze_repository_for_task`. -/
def techKeywords : List (Str × List Str) :=
  [ ("web".data, ["html".data, "css".data, "javascript".data, "react".data, "vue".data, "angular".data, "node".data]),
    ("api".data, ["api".data, "rest".data, "graphql".data, "endpoint".data, "server".data, "backend".data]),
    ("data".data, ["data".data, "sql".data, "database".data, "analytics".data, "pandas".data, "numpy".data]),
    ("machine learning".data, ["ml".data, "ai".data, "tensorflow".data, "pytorch".data, "sklearn".data, "model".data]),
    ("mobile".data, ["android".data, "ios".data, "swift".data, "kotlin".data, "react native".data, "flutter".data]),
    ("desktop".data, ["electron".data, "qt".data, "tkinter".data, "javafx".data, "wpf".data]),
    ("game".data, ["game".data, "unity".data, "unreal".data, "pygame".data, "godot".data]),
    ("automation".data, ["automation".data, "script".data, "selenium".data, "ansible".data, "terraform".data]) ]

/-- The header of the analysis report up to the embedded task description:
`f"Analysis of '{repo_name}' for task: '"`. -/
def analysisPre (rn : Str) : Str :=
  "Analysis of '".data ++ rn ++ "' for task: '".data

/-- The relevance-indicator lines of `analyze_repository_for_task`: one line
per keyword category whose name occurs in the lower-cased task description
and at least one of whose keywords occurs in the lower-cased corpus. -/
def relevanceIndicators (env : Env) (rn t : Str) : List Str :=
  let content_lower := lowerStr (readReadmeSummary env rn ++ sampleRepositoryCode env rn 3)
  techKeywords.filterMap fun ck =>
    if containsSub ck.1 (lowerStr t) then
      let matching := ck.2.filter fun kw => containsSub kw content_lower
      if matching = [] then none
      else some ("Relevant for ".data ++ ck.1 ++ ": found ".data ++ pyReprList matching)
    else none

/-- The final section of the analysis report: the joined indicator lines, or
the fixed no-indicators line. -/
def indicatorSection (env : Env) (rn t : Str) : Str :=
  if relevanceIndicators env rn t = [] then
    "No specific relevance indicators found for the given task.".data
  else "Relevance Analysis:\n".data ++ List.intercalate ("\n".data) (relevanceIndicators env rn t)

/-- Everything the analysis report appends after the embedded task
description: closing quote, README section, code section, and the relevance
indicator section. -/
def analysisTail (env : Env) (rn t : Str) : Str :=
  "'\n\n".data ++
  "README Summary:\n".data ++ readReadmeSummary env rn ++ "\n\n".data ++
  "Code Sample:\n".data ++ sampleRepositoryCode env rn 3 ++ "\n\n".data ++
  indicatorSection env rn t

/-- `analyze_repository_for_task`: the composed text report; note that the
task description is embedded verbatim in the header line. -/
def analyzeRepositoryForTask (env : Env) (rn t : Str) : Str :=
  analysisPre rn ++ t ++ analysisTail env rn t

/-- The marker phrase `"README files found"` tested by the ranker. -/
def mkReadmeFound : Str := "README files found".data

/-- The marker phrase `"No README files found"` tested by the ranker. -/
def mkNoReadme : Str := "No README files found".data

/-- The marker phrase `"Tech Stack:"` tested by the ranker. -/
def mkTechStack : Str := "Tech Stack:".data

/-- The inline scoring block of `find_best_repositories_for_task` (lines
293-308 of the source): keyword-count scoring over the lower-cased analysis
text plus the two fixed marker bonuses tested on the original-case text. -/
def scoreAnalysis (t analysis : Str) : Nat :=
  let task_lower := lowerStr t
  let analysis_lower := lowerStr analysis
  let base := (splitWS task_lower).foldl
    (fun sc w => if 3 < w.length then sc + countOcc w analysis_lower * 2 else sc) 0
  let s1 := if containsSub mkReadmeFound analysis && !containsSub mkNoReadme analysis
            then base + 5 else base
  if containsSub mkTechStack analysis then s1 + 3 else s1

/-- The score the ranker's loop computes for one candidate. -/
def scoreOf (env : Env) (t rn : Str) : Nat :=
  scoreAnalysis t (analyzeRepositoryForTask env rn t)

/-- One entry of the ranker's `repo_scores` list. -/
structure RepoScore where
  repo : Str
  score : Nat
  analysis : Str
deriving DecidableEq

/-- The `repo_scores` list in enumeration order: one analysis and score per
candidate among the first `max_repos` of the listing.  (The model is pure,
so the `except` arm of the source, which converts a raised exception into a
zero-score entry, is unreachable.) -/
def repoScoresOf (env : Env) (t : Str) (maxRepos : Nat) : List RepoScore :=
  ((listCodingDirectories env).take maxRepos).map fun rn =>
    let analysis := analyzeRepositoryForTask env rn t
    ⟨rn, scoreAnalysis t analysis, analysis⟩

/-- Stable insertion into a list sorted by descending score: a new entry goes
after every entry of greater or equal score. -/
def insertScored (x : RepoScore) : List RepoScore → List RepoScore
  | [] => [x]
  | y :: ys => if y.score < x.score then x :: y :: ys else y :: insertScored x ys

/-- Python's `repo_scores.sort(key=lambda x: x[1], reverse=True)`: a stable
sort by descending score. -/
def sortScored (l : List RepoScore) : List RepoScore :=
  l.foldl (fun acc x => insertScored x acc) []

/-- The per-candidate summary lines of the ranker's output: the non-blank
lines among the first ten lines of the analysis, capped at five
(`lines[:10]`, then the blank filter, then `[:5]`). -/
def summaryLinesOf (analysis : Str) : List Str :=
  ((((splitNl analysis).take 10).filter fun line => !(pyStrip line).isEmpty).take 5)

/-- The numbered output blocks of the ranker, starting at index `i`. -/
def renderBlocks : Nat → List RepoScore → Str
  | _, [] => []
  | i, x :: xs =>
      natStr i ++ ". ".data ++ x.repo ++ " (Score: ".data ++ natStr x.score ++ ")\n".data ++
      (if 0 < x.score then
        List.intercalate ("\n".data) (summaryLinesOf x.analysis) ++ "\n\n".data
       else "   ".data ++ x.analysis ++ "\n\n".data) ++
      renderBlocks (i + 1) xs

/-- `find_best_repositories_for_task`: analyze every candidate, score it,
sort by descending score (stable) and render the numbered ranking. -/
def findBestRepositoriesForTask (env : Env) (t : Str) (maxRepos : Nat) : Str :=
  if listCodingDirectories env = [] then
    "No repositories found in the coding directory.".data
  else
    "Best repositories for task: '".data ++ t ++ "'\n\n".data ++
    renderBlocks 1 (sortScored (repoScoresOf env t maxRepos))

/-- The per-candidate summary as the spec's words describe it ("the first
five non-blank lines of its report"), for comparison with `summaryLinesOf`,
which the ranker actually computes. -/
def specSummaryLines (analysis : Str) : List Str :=
  ((splitNl analysis).filter fun line => !(pyStrip line).isEmpty).take 5

/-! ## Concrete test environments -/

/-- An empty coding directory. -/
def envNone : Env := ⟨[]⟩

/-- A repository named `x` that exists but holds no files. -/
def repoEmptyX : Repo := ⟨"x".data, [⟨[], []⟩]⟩

/-- A coding directory holding only the empty repository `x`. -/
def envX : Env := ⟨[repoEmptyX]⟩

/-- Repository `B`: one short README and one Python file. -/
def repoRankB : Repo :=
  ⟨"B".data, [⟨[], [⟨"README.md".data, some ("hello".data)⟩,
                    ⟨"main.py".data, some ("print".data)⟩]⟩]⟩

/-- Repository `A`: same content as `B` under another name. -/
def repoRankA : Repo :=
  ⟨"A".data, [⟨[], [⟨"README.md".data, some ("hello".data)⟩,
                    ⟨"main.py".data, some ("print".data)⟩]⟩]⟩

/-- A coding directory enumerating `B` before `A`; both score 10 for the
task `zzzz`. -/
def envRank : Env := ⟨[repoRankB, repoRankA]⟩

/-- Readable README content longer than 500 characters whose text happens to
start with the word `File`. -/
def contentFileLong : Str := "File".data ++ List.replicate 501 'a'

/-- A repository whose only README is readable, longer than 500 characters,
and starts with `File`. -/
def envDocSkip : Env :=
  ⟨[⟨"r".data, [⟨[], [⟨"README.md".data, some contentFileLong⟩]⟩]⟩]⟩

/-- The repository holding two README files in one directory. -/
def repoTwoReadmes : Repo :=
  ⟨"r".data, [⟨[], [⟨"README.md".data, some ("hello".data)⟩,
                    ⟨"readme.txt".data, some ("world".data)⟩]⟩]⟩

/-- A coding directory holding `repoTwoReadmes`. -/
def envTwoReadmes : Env := ⟨[repoTwoReadmes]⟩

/-- A repository whose README content is the phrase
`No README files found`. -/
def envPoisonReadme : Env :=
  ⟨[⟨"r".data, [⟨[], [⟨"README.md".data, some ("No README files found".data)⟩]⟩]⟩]⟩

/-- README content of 501 identical characters (no marker words). -/
def contentLongB : Str := List.replicate 501 'b'

/-- A repository with a plain readable README longer than 500 characters. -/
def envLongReadme : Env :=
  ⟨[⟨"r".data, [⟨[], [⟨"README.md".data, some contentLongB⟩]⟩]⟩]⟩

/-- A task description containing ten newlines between its two retained
tokens. -/
def taskNl : Str := "aaaa\n\n\n\n\n\n\n\n\n\nbbbb".data

/-! ## Lemmas on the text primitives -/

theorem startsWithB_append_self : ∀ (p b : Str), startsWithB p (p ++ b) = true
  | [], _ => rfl
  | c :: cs, b => by simp [startsWithB, startsWithB_append_self cs b]

theorem startsWithB_length_le : ∀ {p s : Str}, startsWithB p s = true → p.length ≤ s.length
  | [], _, _ => by simp
  | _ :: _, [], h => by simp [startsWithB] at h
  | p :: ps, c :: cs, h => by
      by_cases hc : p = c
      · simp only [startsWithB, if_pos hc] at h
        exact Nat.succ_le_succ (startsWithB_length_le h)
      · simp [startsWithB, hc] at h

theorem startsWithB_append_ext : ∀ {p c : Str} (s : Str),
    startsWithB p c = true → startsWithB p (c ++ s) = true
  | [], _, _, _ => rfl
  | _ :: _, [], _, h => by simp [startsWithB] at h
  | p :: ps, c :: cs, s, h => by
      by_cases hc : p = c
      · simp only [startsWithB, if_pos hc] at h ⊢
        exact startsWithB_append_ext s h
      · simp [startsWithB, hc] at h

theorem startsWithB_of_append : ∀ {p c : Str} (s : Str),
    startsWithB p (c ++ s) = true → p.length ≤ c.length → startsWithB p c = true
  | [], _, _, _, _ => rfl
  | _ :: _, [], _, _, hl => by simp at hl
  | p :: ps, c :: cs, s, h, hl => by
      by_cases hc : p = c
      · simp only [List.cons_append, startsWithB, if_pos hc] at h ⊢
        exact startsWithB_of_append s h (Nat.le_of_succ_le_succ hl)
      · simp [startsWithB, hc] at h

theorem containsSub_nil_pat : ∀ (s : Str), containsSub [] s = true
  | [] => rfl
  | _ :: cs => by simp [containsSub, startsWithB]

theorem containsSub_of_parts : ∀ (a p b : Str), containsSub p (a ++ (p ++ b)) = true
  | [], p, b => by
      cases p with
      | nil => simpa using containsSub_nil_pat b
      | cons c cs =>
          simpa [containsSub] using Or.inl (startsWithB_append_self (c :: cs) b)
  | x :: a, p, b => by
      simpa [containsSub] using Or.inr (containsSub_of_parts a p b)

theorem countOccAux_nil_pat : ∀ (s : Str) (k : Nat), 1 ≤ countOccAux [] s k
  | [], _ => by simp [countOccAux]
  | _ :: cs, 0 => by simp [countOccAux, startsWithB]
  | _ :: cs, k + 1 => by
      simpa [countOccAux] using countOccAux_nil_pat cs k

theorem countOccAux_short : ∀ {p : Str} (s : Str) (k : Nat),
    s.length < p.length → countOccAux p s k = 0
  | p, [], k, h => by
      have : p ≠ [] := by
        intro hp; rw [hp] at h; simp at h
      simp [countOccAux, this]
  | p, c :: cs, 0, h => by
      have hsw : ¬ startsWithB p (c :: cs) = true := by
        intro hx
        exact Nat.lt_irrefl _ (Nat.lt_of_lt_of_le h (startsWithB_length_le hx))
      have hrec : countOccAux p cs 0 = 0 :=
        countOccAux_short cs 0 (Nat.lt_of_le_of_lt (Nat.le_succ _) h)
      simp [countOccAux, hsw, hrec]
  | p, c :: cs, k + 1, h => by
      have hrec : countOccAux p cs k = 0 :=
        countOccAux_short cs k (Nat.lt_of_le_of_lt (Nat.le_succ _) h)
      simp [countOccAux, hrec]

theorem countOccAux_append_le : ∀ (p c s : Str) (k : Nat),
    countOccAux p c k ≤ countOccAux p (c ++ s) k
  | p, [], s, k => by
      by_cases hp : p = []
      · subst hp
        simpa [countOccAux] using countOccAux_nil_pat s k
      · simp [countOccAux, hp]
  | p, ch :: cs, s, 0 => by
      by_cases h1 : startsWithB p (ch :: cs) = true
      · have h2 : startsWithB p ((ch :: cs) ++ s) = true := startsWithB_append_ext s h1
        rw [List.cons_append] at h2 ⊢
        simp only [countOccAux, h1, h2, if_true]
        have := countOccAux_append_le p cs s (p.length - 1)
        omega
      · by_cases h2 : startsWithB p (ch :: (cs ++ s)) = true
        · have hle : ¬ p.length ≤ (ch :: cs).length := by
            intro hle
            exact h1 (startsWithB_of_append s (by rw [List.cons_append]; exact h2) hle)
          have hz : countOccAux p (ch :: cs) 0 = 0 :=
            countOccAux_short _ 0 (Nat.lt_of_not_le hle)
          rw [hz]
          exact Nat.zero_le _
        · rw [List.cons_append]
          simp only [countOccAux, h1, h2, if_false]
          exact countOccAux_append_le p cs s 0
  | p, ch :: cs, s, k + 1 => by
      rw [List.cons_append]
      simp only [countOccAux]
      exact countOccAux_append_le p cs s k

theorem countOcc_append_le (p c s : Str) : countOcc p c ≤ countOcc p (c ++ s) :=
  countOccAux_append_le p c s 0

theorem countOcc_pos : ∀ (a : Str) {p : Str} (b : Str), p ≠ [] → 1 ≤ countOcc p (a ++ (p ++ b))
  | [], p, b, hp => by
      cases p with
      | nil => exact absurd rfl hp
      | cons c cs =>
          have h1 : startsWithB (c :: cs) ((c :: cs) ++ b) = true := startsWithB_append_self _ b
          rw [List.nil_append]
          rw [List.cons_append] at h1 ⊢
          simp [countOcc, countOccAux, h1]
  | x :: a, p, b, hp => by
      have ih := countOcc_pos a b hp
      by_cases h1 : startsWithB p (x :: (a ++ (p ++ b))) = true
      · simp [countOcc, countOccAux, h1]
      · rw [List.cons_append]
        simp only [countOcc, countOccAux, h1, if_false]
        exact ih

theorem lowerStr_append (a b : Str) : lowerStr (a ++ b) = lowerStr a ++ lowerStr b :=
  List.map_append lowerC a b

theorem length_lowerStr (s : Str) : (lowerStr s).length = s.length :=
  List.length_map s lowerC

theorem isSpaceC_lowerC (c : Char) : isSpaceC (lowerC c) = isSpaceC c := by
  unfold lowerC
  cases hf : casePairs.find? fun p => p.1 = c with
  | none => rfl
  | some p =>
      have hmem : p ∈ casePairs := List.mem_of_find?_eq_some hf
      have hpc : p.1 = c := by simpa using List.find?_some hf
      have h1 : ∀ q ∈ casePairs, isSpaceC q.2 = false ∧ isSpaceC q.1 = false := by decide
      obtain ⟨h2, h3⟩ := h1 p hmem
      rw [h2, ← hpc, h3]

theorem splitWSAux_mem : ∀ (s acc w : Str), w ∈ splitWSAux s acc →
    ∃ a b, acc.reverse ++ s = a ++ (w ++ b)
  | [], acc, w, h => by
      by_cases ha : acc = []
      · simp [splitWSAux, ha] at h
      · simp only [splitWSAux, if_neg ha, List.mem_singleton] at h
        exact ⟨[], [], by simp [h]⟩
  | c :: cs, acc, w, h => by
      by_cases hsp : isSpaceC c = true
      · by_cases ha : acc = []
        · simp only [splitWSAux, hsp, if_true, if_pos ha] at h
          obtain ⟨a, b, hab⟩ := splitWSAux_mem cs [] w h
          simp only [List.reverse_nil, List.nil_append] at hab
          exact ⟨c :: a, b, by simp [ha, hab]⟩
        · simp only [splitWSAux, hsp, if_true, if_neg ha, List.mem_cons] at h
          rcases h with h | h
          · exact ⟨[], c :: cs, by simp [h]⟩
          · obtain ⟨a, b, hab⟩ := splitWSAux_mem cs [] w h
            simp only [List.reverse_nil, List.nil_append] at hab
            refine ⟨acc.reverse ++ (c :: a), b, ?_⟩
            simp [hab, List.append_assoc]
      · have hne : isSpaceC c = false := Bool.eq_false_iff.mpr hsp
        simp only [splitWSAux, hne, Bool.false_eq_true, if_false] at h
        obtain ⟨a, b, hab⟩ := splitWSAux_mem cs (c :: acc) w h
        refine ⟨a, b, ?_⟩
        rw [← hab]
        simp [List.append_assoc]

theorem splitWS_mem_parts {w s : Str} (h : w ∈ splitWS s) : ∃ a b, s = a ++ (w ++ b) := by
  simpa using splitWSAux_mem s [] w h

theorem splitWSAux_append_space : ∀ (s w acc : Str),
    splitWSAux (s ++ ' ' :: w) acc = splitWSAux s acc ++ splitWSAux w []
  | [], w, acc => by
      have hsp : isSpaceC ' ' = true := by decide
      by_cases ha : acc = [] <;> simp [splitWSAux, ha, hsp]
  | c :: cs, w, acc => by
      have ih := splitWSAux_append_space cs w
      by_cases hsp : isSpaceC c = true
      · by_cases ha : acc = [] <;> simp [splitWSAux, hsp, ha, ih]
      · simp [splitWSAux, hsp, ih]

theorem splitWSAux_nonspace : ∀ (w acc : Str), (∀ c ∈ w, isSpaceC c = false) →
    splitWSAux w acc = if acc = [] ∧ w = [] then [] else [acc.reverse ++ w]
  | [], acc, _ => by
      by_cases ha : acc = [] <;> simp [splitWSAux, ha]
  | c :: cs, acc, h => by
      have hc : isSpaceC c = false := h c (List.mem_cons_self c cs)
      have ih := splitWSAux_nonspace cs (c :: acc)
        (fun x hx => h x (List.mem_cons_of_mem c hx))
      simp only [splitWSAux, hc, Bool.false_eq_true, if_false]
      rw [ih]
      simp [List.append_assoc]

/-- The keyword component of the ranker's score, as the sum over the task's
tokens of twice the occurrence count of each retained token. -/
def ksumList (ws : List Str) (al : Str) : Nat :=
  (ws.map fun w => if 3 < w.length then countOcc w al * 2 else 0).sum

theorem foldl_score_eq (al : Str) : ∀ (ws : List Str) (acc : Nat),
    ws.foldl (fun sc w => if 3 < w.length then sc + countOcc w al * 2 else sc) acc
      = acc + ksumList ws al
  | [], acc => by simp [ksumList]
  | w :: ws, acc => by
      by_cases h : 3 < w.length
      · simp [ksumList, List.foldl_cons, foldl_score_eq al ws, h]
        omega
      · simp [ksumList, List.foldl_cons, foldl_score_eq al ws, h]

theorem ksumList_append (l1 l2 : List Str) (al : Str) :
    ksumList (l1 ++ l2) al = ksumList l1 al + ksumList l2 al := by
  simp [ksumList]

theorem ksumList_corpus_append_le (ws : List Str) (c s : Str) :
    ksumList ws c ≤ ksumList ws (c ++ s) := by
  unfold ksumList
  refine List.sum_le_sum fun w _ => ?_
  by_cases h : 3 < w.length <;> simp [h]
  exact countOcc_append_le w c s

theorem ksumList_ge_retained (ws : List Str) (al : Str)
    (h : ∀ w ∈ ws, 3 < w.length → 1 ≤ countOcc w al) :
    2 * (ws.filter fun w => decide (3 < w.length)).length ≤ ksumList ws al := by
  induction ws with
  | nil => simp [ksumList]
  | cons w ws ih =>
      have hws := ih fun x hx => h x (List.mem_cons_of_mem _ hx)
      by_cases hl : 3 < w.length
      · have h1 : 1 ≤ countOcc w al := h w (List.mem_cons_self w ws) hl
        rw [List.filter_cons_of_pos (by simpa using hl)]
        simp only [ksumList, List.map_cons, List.sum_cons, if_pos hl, List.length_cons]
        simp only [ksumList] at hws
        omega
      · rw [List.filter_cons_of_neg (by simpa using hl)]
        simp only [ksumList, List.map_cons, List.sum_cons, if_neg hl]
        simp only [ksumList] at hws
        omega

theorem scoreAnalysis_eq (t a : Str) :
    scoreAnalysis t a = ksumList (splitWS (lowerStr t)) (lowerStr a)
      + (if containsSub mkReadmeFound a && !containsSub mkNoReadme a then 5 else 0)
      + (if containsSub mkTechStack a then 3 else 0) := by
  simp only [scoreAnalysis]
  rw [foldl_score_eq]
  cases h1 : containsSub mkReadmeFound a && !containsSub mkNoReadme a <;>
    cases h2 : containsSub mkTechStack a <;> simp [h1, h2]

theorem length_pyStrip_le (s : Str) : (pyStrip s).length ≤ s.length := by
  unfold pyStrip
  rw [List.length_reverse]
  calc ((s.dropWhile isSpaceC).reverse.dropWhile isSpaceC).length
      ≤ (s.dropWhile isSpaceC).reverse.length :=
        (List.dropWhile_suffix isSpaceC).length_le
    _ = (s.dropWhile isSpaceC).length := List.length_reverse _
    _ ≤ s.length := (List.dropWhile_suffix isSpaceC).length_le

theorem containsSub_app_l (p u s : Str) (h : containsSub p s = true) :
    containsSub p (u ++ s) = true := by
  induction u with
  | nil => simpa using h
  | cons c cs ih =>
      rw [List.cons_append]
      simp only [containsSub, Bool.or_eq_true]
      exact Or.inr ih

theorem containsSub_app_r (p : Str) : ∀ (s u : Str),
    containsSub p s = true → containsSub p (s ++ u) = true
  | [], u, h => by
      have hp : p = [] := by simpa [containsSub, List.isEmpty_iff] using h
      subst hp
      simpa using containsSub_nil_pat u
  | c :: cs, u, h => by
      simp only [containsSub, Bool.or_eq_true] at h
      rw [List.cons_append]
      simp only [containsSub, Bool.or_eq_true]
      rcases h with h | h
      · exact Or.inl (by simpa using startsWithB_append_ext u h)
      · exact Or.inr (containsSub_app_r p cs u h)

theorem containsSub_self_app (p u : Str) : containsSub p (p ++ u) = true := by
  simpa using containsSub_of_parts [] p u

/-- The tail of the analysis report starts with the README section. -/
theorem analysisTail_shape (env : Env) (rn t : Str) :
    analysisTail env rn t
      = "'\n\n".data ++ ("README Summary:\n".data ++ (readReadmeSummary env rn ++
          ("\n\n".data ++ ("Code Sample:\n".data ++ (sampleRepositoryCode env rn 3 ++
            ("\n\n".data ++ indicatorSection env rn t)))))) := by
  simp [analysisTail, List.append_assoc]

/-- The analysis report contains any phrase contained in its README
summary section. -/
theorem containsSub_analyze_of_summary {p : Str} (env : Env) (rn t : Str)
    (h : containsSub p (readReadmeSummary env rn) = true) :
    containsSub p (analyzeRepositoryForTask env rn t) = true := by
  rw [analyzeRepositoryForTask, analysisTail_shape]
  apply containsSub_app_l
  apply containsSub_app_l
  apply containsSub_app_l
  exact containsSub_app_r _ _ _ h

/-- When a repository has no README files, its summary is the literal
no-README message, which starts with the negative marker phrase. -/
theorem readme_summary_of_empty {env : Env} {rn : Str}
    (hrf : findReadmeFiles env rn = []) :
    readReadmeSummary env rn
      = mkNoReadme ++ (" in repository '".data ++ (rn ++ "'.".data)) := by
  rw [readReadmeSummary, if_pos hrf]
  have hx : ("No README files found in repository '".data : Str)
      = mkNoReadme ++ " in repository '".data := rfl
  rw [hx]
  simp [List.append_assoc]

/-- Whenever the README list is empty, the negative marker occurs in the
analysis text, so the documentation bonus is withheld. -/
theorem containsSub_noReadme_of_empty {env : Env} {rn : Str} (t : Str)
    (hrf : findReadmeFiles env rn = []) :
    containsSub mkNoReadme (analyzeRepositoryForTask env rn t) = true := by
  apply containsSub_analyze_of_summary
  rw [readme_summary_of_empty hrf]
  exact containsSub_self_app _ _

/-! ## Stability of the ranking sort -/

/-- The invariant maintained by the insertion sort: scores are descending. -/
def sortedDesc (l : List RepoScore) : Prop :=
  l.Pairwise fun a b => b.score ≤ a.score

theorem mem_insertScored {b x : RepoScore} : ∀ {l : List RepoScore},
    b ∈ insertScored x l ↔ b = x ∨ b ∈ l
  | [] => by simp [insertScored]
  | y :: ys => by
      by_cases hc : y.score < x.score
      · simp [insertScored, hc]
      · simp only [insertScored, if_neg hc, List.mem_cons, mem_insertScored]
        tauto

theorem insertScored_sorted {l : List RepoScore} (x : RepoScore) (h : sortedDesc l) :
    sortedDesc (insertScored x l) := by
  induction l with
  | nil => simp [insertScored, sortedDesc]
  | cons y ys ih =>
      rw [sortedDesc, List.pairwise_cons] at h
      obtain ⟨hy, hys⟩ := h
      by_cases hc : y.score < x.score
      · rw [insertScored, if_pos hc, sortedDesc, List.pairwise_cons]
        refine ⟨?_, List.Pairwise.cons hy hys⟩
        intro b hb
        rcases List.mem_cons.mp hb with rfl | hb
        · exact Nat.le_of_lt hc
        · exact Nat.le_trans (hy b hb) (Nat.le_of_lt hc)
      · rw [insertScored, if_neg hc, sortedDesc, List.pairwise_cons]
        refine ⟨?_, ih hys⟩
        intro b hb
        rcases mem_insertScored.mp hb with rfl | hb
        · exact Nat.le_of_not_lt hc
        · exact hy b hb

theorem filter_insertScored (x : RepoScore) (s : Nat) :
    ∀ {l : List RepoScore}, sortedDesc l →
      (insertScored x l).filter (fun y => decide (y.score = s))
        = if x.score = s
          then l.filter (fun y => decide (y.score = s)) ++ [x]
          else l.filter (fun y => decide (y.score = s))
  | [], _ => by
      by_cases hxs : x.score = s <;> simp [insertScored, hxs]
  | y :: ys, h => by
      rw [sortedDesc, List.pairwise_cons] at h
      obtain ⟨hy, hys⟩ := h
      by_cases hc : y.score < x.score
      · rw [insertScored, if_pos hc]
        by_cases hxs : x.score = s
        · have hnil : (y :: ys).filter (fun y => decide (y.score = s)) = [] := by
            rw [List.filter_eq_nil_iff]
            intro b hb
            have hble : b.score ≤ y.score := by
              rcases List.mem_cons.mp hb with rfl | hb
              · exact Nat.le_refl _
              · exact hy b hb
            have : b.score < s := by omega
            simp [Nat.ne_of_lt this]
          rw [List.filter_cons_of_pos (by simpa using hxs), hnil, if_pos hxs]
          simp
        · rw [List.filter_cons_of_neg (by simpa using hxs), if_neg hxs]
      · rw [insertScored, if_neg hc]
        have ih := filter_insertScored x s hys
        by_cases hyss : y.score = s
        · rw [List.filter_cons_of_pos (by simpa using hyss),
            List.filter_cons_of_pos (by simpa using hyss), ih]
          by_cases hxs : x.score = s <;> simp [hxs]
        · rw [List.filter_cons_of_neg (by simpa using hyss),
            List.filter_cons_of_neg (by simpa using hyss), ih]

theorem foldl_insertScored_filter (s : Nat) :
    ∀ (l acc : List RepoScore), sortedDesc acc →
      (l.foldl (fun a x => insertScored x a) acc).filter (fun y => decide (y.score = s))
        = acc.filter (fun y => decide (y.score = s))
            ++ l.filter (fun y => decide (y.score = s))
  | [], acc, _ => by simp
  | x :: l, acc, h => by
      rw [List.foldl_cons,
        foldl_insertScored_filter s l (insertScored x acc) (insertScored_sorted x h),
        filter_insertScored x s h]
      by_cases hxs : x.score = s
      · rw [if_pos hxs, List.filter_cons_of_pos (by simpa using hxs)]
        simp
      · rw [if_neg hxs, List.filter_cons_of_neg (by simpa using hxs)]

/-- Stability of the ranker's sort: within every score class, the sorted
list keeps the enumeration order. -/
theorem sortScored_filter (s : Nat) (l : List RepoScore) :
    (sortScored l).filter (fun y => decide (y.score = s))
      = l.filter (fun y => decide (y.score = s)) := by
  simpa using foldl_insertScored_filter s l [] (by simp [sortedDesc])

/-! ## Lemmas on the output rendering and sampling bounds -/

theorem summaryLinesOf_sublist (a : Str) :
    List.Sublist (summaryLinesOf a) (splitNl a) := by
  unfold summaryLinesOf
  refine List.Sublist.trans (List.take_sublist 5 _) ?_
  exact List.Sublist.trans (List.filter_sublist _) (List.take_sublist 10 _)

theorem summaryLinesOf_length_le (a : Str) : (summaryLinesOf a).length ≤ 5 :=
  List.length_take_le 5 _

theorem summaryLinesOf_mem {a x : Str} (hx : x ∈ summaryLinesOf a) :
    x ∈ splitNl a ∧ pyStrip x ≠ [] := by
  unfold summaryLinesOf at hx
  have hx1 := List.mem_of_mem_take hx
  obtain ⟨hx2, hx3⟩ := List.mem_filter.mp hx1
  refine ⟨List.mem_of_mem_take hx2, ?_⟩
  simpa [List.isEmpty_iff] using hx3

theorem length_codePreview_le (c : Str) : (codePreview c).length ≤ 203 := by
  unfold codePreview
  have h1 : (pyStrip (c.take 200)).length ≤ 200 :=
    Nat.le_trans (length_pyStrip_le _) (by simp)
  by_cases h : 200 < c.length
  · simp [if_pos h]
    omega
  · simp [if_neg h]
    omega

theorem length_readmePreview_le (c : Str) : (readmePreview c).length ≤ 503 := by
  unfold readmePreview
  have h1 : (c.take 500).length ≤ 500 := by simp
  by_cases h : 500 < c.length
  · simp [if_pos h]
  · simp [if_neg h]

theorem sampledPreviews_length_le (env : Env) (r : Repo) (m : Nat) :
    (sampledPreviews env r m).length ≤ m := by
  unfold sampledPreviews
  exact Nat.le_trans (List.length_filterMap_le _ _) (List.length_take_le m _)

theorem readmePreviewList_length_le (env : Env) (rn : Str) :
    (readmePreviewList env rn).length ≤ 3 := by
  unfold readmePreviewList
  exact Nat.le_trans (List.length_filterMap_le _ _) (List.length_take_le 3 _)

theorem sampledPreviews_mem {env : Env} {r : Repo} {m : Nat} {x : Str × Str × Str}
    (hx : x ∈ sampledPreviews env r m) :
    ∃ c : Str, x.2.2 = codePreview c := by
  unfold sampledPreviews at hx
  obtain ⟨pl, _, hpl⟩ := List.mem_filterMap.mp hx
  by_cases hc : (!startsWithB ("File".data) (readRepositoryFile env r.name pl.1)
      && !startsWithB ("Error".data) (readRepositoryFile env r.name pl.1)) = true
  · rw [if_pos hc] at hpl
    exact ⟨readRepositoryFile env r.name pl.1, by rw [← Option.some_inj.mp hpl]⟩
  · rw [if_neg hc] at hpl
    simp at hpl

theorem readmePreviewList_mem {env : Env} {rn : Str} {x : Str × Str}
    (hx : x ∈ readmePreviewList env rn) :
    ∃ c : Str, x.2 = readmePreview c := by
  unfold readmePreviewList at hx
  obtain ⟨rf, _, hrf⟩ := List.mem_filterMap.mp hx
  by_cases hc : (!startsWithB ("File".data) (readRepositoryFile env rn rf)
      && !startsWithB ("Error".data) (readRepositoryFile env rn rf)) = true
  · rw [if_pos hc] at hrf
    exact ⟨readRepositoryFile env rn rf, by rw [← Option.some_inj.mp hrf]⟩
  · rw [if_neg hc] at hrf
    simp at hrf

theorem flattenMap_mem_parts {α : Type} (g : α → Str) {x : α} :
    ∀ {l : List α}, x ∈ l → ∃ u v, (l.map g).flatten = u ++ (g x ++ v)
  | [], h => absurd h (List.not_mem_nil x)
  | y :: l, h => by
      rcases List.mem_cons.mp h with rfl | h
      · exact ⟨[], (l.map g).flatten, by simp⟩
      · obtain ⟨u, v, huv⟩ := flattenMap_mem_parts g h
        exact ⟨g y ++ u, v, by simp [huv, List.append_assoc]⟩

/-- The composed README block of a previewed file occurs verbatim inside the
summary text. -/
theorem readme_block_in_summary {env : Env} {rn f c : Str}
    (h3 : f ∈ (findReadmeFiles env rn).take 3)
    (hread : readRepositoryFile env rn f = c)
    (hF : startsWithB ("File".data) c = false)
    (hE : startsWithB ("Error".data) c = false) :
    containsSub ("=== ".data ++ f ++ " ===\n".data ++ readmePreview c ++ "\n\n".data)
      (readReadmeSummary env rn) = true := by
  have hnil : ¬ findReadmeFiles env rn = [] := by
    intro h0
    rw [h0] at h3
    simp at h3
  have hmem : (f, readmePreview c) ∈ readmePreviewList env rn := by
    unfold readmePreviewList
    refine List.mem_filterMap.mpr ⟨f, h3, ?_⟩
    simp [hread, hF, hE]
  rw [readReadmeSummary, if_neg hnil]
  apply containsSub_app_l
  obtain ⟨u, v, huv⟩ :=
    flattenMap_mem_parts
      (fun fp => "=== ".data ++ fp.1 ++ " ===\n".data ++ fp.2 ++ "\n\n".data) hmem
  rw [huv]
  exact containsSub_of_parts u _ v

/-- Every path returned by `find_readme_files` is the path of the first
file of some walked directory whose upper-cased name starts with README. -/
theorem findReadmeFiles_mem {env : Env} {rn p : Str} {r : Repo}
    (hr : lookupRepo env rn = some r) (hp : p ∈ findReadmeFiles env rn) :
    ∃ d ∈ r.dirs, ∃ f ∈ d.files, p = relPath d.parts f.name ∧
      startsWithB ("README".data) (upperStr f.name) = true := by
  have hp' : p ∈ r.dirs.flatMap readmeDirHits := by
    unfold findReadmeFiles at hp
    rw [hr] at hp
    exact hp
  obtain ⟨d, hd, hpd⟩ := List.mem_flatMap.mp hp'
  unfold readmeDirHits at hpd
  obtain ⟨pat, hpat, hppat⟩ := List.mem_flatMap.mp hpd
  cases hf : d.files.find? fun f => startsWithB ("README".data) (upperStr f.name) with
  | none =>
      rw [hf] at hppat
      simp at hppat
  | some f =>
      rw [hf] at hppat
      simp only [List.mem_singleton] at hppat
      exact ⟨d, hd, f, List.mem_of_find?_eq_some hf, hppat,
        by simpa using List.find?_some hf⟩

/-! ## Claim theorems -/

/-- C1 (as stated, refuted): a candidate whose directory does not exist is
claimed to contribute a score of 0, but the analysis report embeds the task
description verbatim, so retained task tokens score even for a missing
repository: with task `data analysis project`, the missing candidate `X`
scores 8, not 0. -/
theorem missing_repo_score_not_zero :
    lookupRepo envNone ("X".data) = none
    ∧ scoreOf envNone ("data analysis project".data) ("X".data) = 8 :=
  ⟨rfl, rfl⟩

/-- C1 (amended): for a repository name whose directory does not exist,
`sample_repository_code` returns exactly the message
`Repository '<name>' does not exist.`, and the candidate is scored without
any failure path and with no README bonus: unless the marker `Tech Stack:`
happens to occur in the composed report, its score is exactly the keyword
component of the scorer (which is positive, not 0, whenever a retained task
token occurs in the report). -/
theorem sample_missing_repo_message_and_score (env : Env) (rn t : Str) (m : Nat)
    (hmiss : lookupRepo env rn = none) :
    sampleRepositoryCode env rn m
        = "Repository '".data ++ rn ++ "' does not exist.".data
    ∧ (containsSub mkTechStack (analyzeRepositoryForTask env rn t) = false →
        scoreOf env t rn
          = ksumList (splitWS (lowerStr t))
              (lowerStr (analyzeRepositoryForTask env rn t))) := by
  constructor
  · unfold sampleRepositoryCode
    rw [hmiss]
  · intro htech
    have hrf : findReadmeFiles env rn = [] := by
      unfold findReadmeFiles
      rw [hmiss]
    have hno := containsSub_noReadme_of_empty t hrf
    unfold scoreOf
    rw [scoreAnalysis_eq]
    simp [hno, htech]

/-- C1 witness: the amended statement evaluated for the empty coding
directory and candidate `X`. -/
theorem sample_missing_repo_message_and_score_wit :
    sampleRepositoryCode envNone ("X".data) 5
        = "Repository '".data ++ "X".data ++ "' does not exist.".data
    ∧ scoreOf envNone ("ok".data) ("X".data)
        = ksumList (splitWS (lowerStr ("ok".data)))
            (lowerStr (analyzeRepositoryForTask envNone ("X".data) ("ok".data))) := by
  have h := sample_missing_repo_message_and_score envNone ("X".data) ("ok".data) 5 rfl
  exact ⟨h.1, h.2 (by decide)⟩

/-- C2 (as stated, refuted): appending the whitespace token `abc` (length 3)
to the task description `abc'` changes the candidate's score from 2 to 4,
because the task description is embedded in the scored report: the appended
short token creates a second occurrence of the retained token `abc'`
(closed by the report's quote character). -/
theorem short_token_changes_score :
    scoreOf envX ("abc'".data) ("x".data) = 2
    ∧ scoreOf envX ("abc'".data ++ " ".data ++ "abc".data) ("x".data) = 4
    ∧ ("abc".data : Str).length ≤ 3
    ∧ ∀ ch ∈ ("abc".data : Str), isSpaceC ch = false := by
  refine ⟨rfl, rfl, by decide, by decide⟩

/-- C2 (amended): over a fixed corpus, the scoring pass ignores whitespace
tokens of length at most 3: appending (equivalently, removing) such a token
to the task description leaves `scoreAnalysis` unchanged.  The end-to-end
property fails only because the corpus itself embeds the task description. -/
theorem short_token_invariance (t w c : Str)
    (hw : ∀ ch ∈ w, isSpaceC ch = false) (hlen : w.length ≤ 3) :
    scoreAnalysis (t ++ " ".data ++ w) c = scoreAnalysis t c := by
  rw [scoreAnalysis_eq, scoreAnalysis_eq]
  simp only [splitWS]
  have hlow : lowerStr (t ++ " ".data ++ w) = lowerStr t ++ ' ' :: lowerStr w := by
    rw [lowerStr_append, lowerStr_append, List.append_assoc]
    rfl
  rw [hlow, splitWSAux_append_space]
  have hw' : ∀ ch ∈ lowerStr w, isSpaceC ch = false := by
    intro ch hch
    obtain ⟨x, hx, rfl⟩ := List.mem_map.mp hch
    rw [isSpaceC_lowerC]
    exact hw x hx
  rw [splitWSAux_nonspace (lowerStr w) [] hw']
  by_cases hwe : lowerStr w = []
  · simp [hwe, ksumList_append]
  · have hcond : ¬(([] : Str) = [] ∧ lowerStr w = []) := by simp [hwe]
    rw [if_neg hcond, ksumList_append]
    have hlen' : ¬ 3 < (lowerStr w).length := by
      rw [length_lowerStr]
      omega
    simp [ksumList, hlen']

/-- C2 witness: the amended invariance evaluated at a concrete task, short
token and corpus. -/
theorem short_token_invariance_wit :
    scoreAnalysis ("test".data ++ " ".data ++ "ab".data) ("corpus text".data)
      = scoreAnalysis ("test".data) ("corpus text".data) :=
  short_token_invariance ("test".data) ("ab".data) ("corpus text".data)
    (by decide) (by decide)

/-- C3 (as stated, refuted): extending the corpus with one more occurrence
of the retained token `dabc` lowers the score from 5 to 2, because the new
occurrence completes the phrase `No README files found` and so toggles off
the +5 documentation bonus. -/
theorem extension_lowers_score :
    splitWS (lowerStr ("dabc".data)) = ["dabc".data]
    ∧ 3 < ("dabc".data : Str).length
    ∧ scoreAnalysis ("dabc".data)
        ("README files found. No README files foun".data) = 5
    ∧ scoreAnalysis ("dabc".data)
        ("README files found. No README files foun".data ++ "dabc".data) = 2 := by
  refine ⟨rfl, by decide, rfl, rfl⟩

/-- C3 (amended): the keyword component of the score is monotone under
extending the corpus on the right; hence the full score is monotone
whenever the extension does not change the three bonus marker tests. -/
theorem score_monotone_extension (t c s : Str)
    (h1 : containsSub mkReadmeFound (c ++ s) = containsSub mkReadmeFound c)
    (h2 : containsSub mkNoReadme (c ++ s) = containsSub mkNoReadme c)
    (h3 : containsSub mkTechStack (c ++ s) = containsSub mkTechStack c) :
    scoreAnalysis t c ≤ scoreAnalysis t (c ++ s) := by
  rw [scoreAnalysis_eq, scoreAnalysis_eq, h1, h2, h3, lowerStr_append]
  have hk := ksumList_corpus_append_le (splitWS (lowerStr t)) (lowerStr c) (lowerStr s)
  omega

/-- C3 witness: monotonicity evaluated at a concrete corpus extension that
adds two occurrences of the retained token. -/
theorem score_monotone_extension_wit :
    scoreAnalysis ("dabc".data) ("xx".data)
      ≤ scoreAnalysis ("dabc".data) ("xx".data ++ " dabc dabc".data) :=
  score_monotone_extension ("dabc".data) ("xx".data) (" dabc dabc".data)
    (by decide) (by decide) (by decide)

/-- C4 (confirmed): the ranking sort is stable — within every score class
the sorted `repo_scores` list preserves the enumeration order — and in the
concrete scenario where candidates `B` and `A` are enumerated in the order
`[B, A]` and both score 10, the output ranks `B` first. -/
theorem ranking_stable :
    (∀ (env : Env) (t : Str) (m s : Nat),
      (sortScored (repoScoresOf env t m)).filter (fun y => decide (y.score = s))
        = (repoScoresOf env t m).filter (fun y => decide (y.score = s)))
    ∧ (sortScored (repoScoresOf envRank ("zzzz".data) 5)).map
        (fun y => (y.repo, y.score))
        = [("B".data, 10), ("A".data, 10)] := by
  exact ⟨fun env t m s => sortScored_filter s _, rfl⟩

/-- C5 (confirmed): `sample_repository_code` previews at most `max_files`
files and every code preview is at most 200 characters plus the 3-character
truncation marker; every documentation preview is at most 500 characters
plus the marker. -/
theorem sampling_bounds :
    (∀ (env : Env) (r : Repo) (m : Nat),
      (sampledPreviews env r m).length ≤ m
      ∧ ∀ x ∈ sampledPreviews env r m, x.2.2.length ≤ 200 + 3)
    ∧ ∀ (env : Env) (rn : Str), ∀ x ∈ readmePreviewList env rn,
        x.2.length ≤ 500 + 3 := by
  constructor
  · intro env r m
    refine ⟨sampledPreviews_length_le env r m, ?_⟩
    intro x hx
    obtain ⟨c, hc⟩ := sampledPreviews_mem hx
    rw [hc]
    exact length_codePreview_le c
  · intro env rn x hx
    obtain ⟨c, hc⟩ := readmePreviewList_mem hx
    rw [hc]
    exact length_readmePreview_le c

/-- C5 witness: the bounds evaluated on a concrete repository and one of its
sampled previews. -/
theorem sampling_bounds_wit :
    (sampledPreviews envRank repoRankB 5).length ≤ 5
    ∧ (("main.py".data, "Python".data, "print".data) : Str × Str × Str).2.2.length
        ≤ 200 + 3 := by
  have h := sampling_bounds.1 envRank repoRankB 5
  exact ⟨h.1, h.2 ("main.py".data, "Python".data, "print".data) (by decide)⟩

/-- C6 (as stated, refuted): a readable README longer than 500 characters
whose content happens to start with the word `File` is skipped entirely by
`read_readme_summary` — no preview is composed for it, so the summary is
just the header and does not contain the claimed truncated preview. -/
theorem file_prefixed_readme_skipped :
    readRepositoryFile envDocSkip ("r".data) ("README.md".data) = contentFileLong
    ∧ 500 < contentFileLong.length
    ∧ readReadmeSummary envDocSkip ("r".data) = "README files found in 'r':\n\n".data
    ∧ containsSub (contentFileLong.take 500 ++ "...".data)
        (readReadmeSummary envDocSkip ("r".data)) = false := by
  refine ⟨rfl, by decide, rfl, by decide⟩

/-- C6 (amended): for a previewed README file — one of the first three found
whose read-back does not start with `File` or `Error` — the composed preview
equals the first 500 characters followed by `...` when the content exceeds
500 characters, and the full content otherwise; its block occurs verbatim in
the summary. -/
theorem readme_preview_truncation (env : Env) (rn f c : Str)
    (h3 : f ∈ (findReadmeFiles env rn).take 3)
    (hread : readRepositoryFile env rn f = c)
    (hF : startsWithB ("File".data) c = false)
    (hE : startsWithB ("Error".data) c = false) :
    readmePreview c = (if 500 < c.length then c.take 500 ++ "...".data else c)
    ∧ containsSub ("=== ".data ++ f ++ " ===\n".data ++ readmePreview c ++ "\n\n".data)
        (readReadmeSummary env rn) = true := by
  constructor
  · unfold readmePreview
    by_cases h : 500 < c.length
    · simp [h]
    · simp [h, List.take_of_length_le (Nat.le_of_not_lt h)]
  · exact readme_block_in_summary h3 hread hF hE

/-- C6 witness: the truncation behaviour evaluated on a 501-character
readable README. -/
theorem readme_preview_truncation_wit :
    readmePreview contentLongB
        = (if 500 < contentLongB.length
           then contentLongB.take 500 ++ "...".data else contentLongB)
    ∧ containsSub ("=== ".data ++ "README.md".data ++ " ===\n".data
          ++ readmePreview contentLongB ++ "\n\n".data)
        (readReadmeSummary envLongReadme ("r".data)) = true :=
  readme_preview_truncation envLongReadme ("r".data) ("README.md".data) contentLongB
    (by decide) (by decide) (by decide) (by decide)

/-- C7 (as stated, refuted): with two README files in one directory, the
first matching file is listed three times (once per pattern, the pattern
being unused) and previewed three times, while the second README file —
although its name matches — never appears in the list. -/
theorem readme_duplication :
    (findReadmeFiles envTwoReadmes ("r".data)).take 3
        = ["README.md".data, "README.md".data, "README.md".data]
    ∧ "readme.txt".data ∉ findReadmeFiles envTwoReadmes ("r".data)
    ∧ startsWithB ("README".data) (upperStr ("readme.txt".data)) = true := by
  refine ⟨rfl, by decide, by decide⟩

/-- C7 (amended): the documentation section previews at most 3 entries, and
every path in the README list is the path of some walked file whose name
begins case-insensitively with README (namely the first such file of its
directory); but the previewed entries need not be distinct, and non-first
README files of a directory are never listed. -/
theorem readme_selection :
    (∀ (env : Env) (rn : Str), (readmePreviewList env rn).length ≤ 3)
    ∧ ∀ (env : Env) (rn : Str) (r : Repo), lookupRepo env rn = some r →
        ∀ p ∈ findReadmeFiles env rn, ∃ d ∈ r.dirs, ∃ f ∈ d.files,
          p = relPath d.parts f.name
          ∧ startsWithB ("README".data) (upperStr f.name) = true :=
  ⟨readmePreviewList_length_le, fun _ _ _ hr _ hp => findReadmeFiles_mem hr hp⟩

/-- C7 witness: the amended statement evaluated on the two-README
repository. -/
theorem readme_selection_wit :
    (readmePreviewList envTwoReadmes ("r".data)).length ≤ 3
    ∧ ∃ d ∈ repoTwoReadmes.dirs, ∃ f ∈ d.files,
        "README.md".data = relPath d.parts f.name
        ∧ startsWithB ("README".data) (upperStr f.name) = true := by
  refine ⟨readme_selection.1 envTwoReadmes ("r".data), ?_⟩
  exact readme_selection.2 envTwoReadmes ("r".data) repoTwoReadmes rfl
    ("README.md".data) (by decide)

/-- C8 (as stated, refuted): a repository whose only README file was found —
so at least one documentation file exists — receives no +5 bonus, because
its README content contains the phrase `No README files found`, which the
marker test reads as the no-documentation message: its score is 0. -/
theorem poisoned_readme_no_bonus :
    findReadmeFiles envPoisonReadme ("r".data) ≠ []
    ∧ scoreOf envPoisonReadme ("a".data) ("r".data) = 0 := by
  refine ⟨by decide, rfl⟩

/-- C8 (amended): the score decomposes as the keyword component plus exactly
5 if and only if the analysis text contains `README files found` and not
`No README files found`, plus exactly 3 if and only if it contains
`Tech Stack:`; the documentation marker condition implies at least one
README file was found (but not conversely). -/
theorem bonus_structure (env : Env) (t rn : Str) :
    scoreOf env t rn
      = ksumList (splitWS (lowerStr t))
          (lowerStr (analyzeRepositoryForTask env rn t))
        + (if containsSub mkReadmeFound (analyzeRepositoryForTask env rn t)
              && !containsSub mkNoReadme (analyzeRepositoryForTask env rn t)
           then 5 else 0)
        + (if containsSub mkTechStack (analyzeRepositoryForTask env rn t)
           then 3 else 0)
    ∧ ((containsSub mkReadmeFound (analyzeRepositoryForTask env rn t)
          && !containsSub mkNoReadme (analyzeRepositoryForTask env rn t)) = true →
        findReadmeFiles env rn ≠ []) := by
  constructor
  · unfold scoreOf
    exact scoreAnalysis_eq t _
  · intro hb hnil
    have hno := containsSub_noReadme_of_empty t hnil
    rw [hno] at hb
    simp at hb

/-- C8 witness: the marker condition discharged on repository `B`, whose
README is genuinely found. -/
theorem bonus_structure_wit : findReadmeFiles envRank ("B".data) ≠ [] :=
  (bonus_structure envRank ("zzzz".data) ("B".data)).2 (by decide)

/-- C9 (as stated, refuted): with a task description containing ten
newlines, the printed summary is not the first five non-blank lines of the
report: the code filters non-blank lines only among the first ten lines, so
it prints a single line here while the report has five non-blank lines. -/
theorem summary_window_differs :
    0 < scoreOf envX taskNl ("x".data)
    ∧ summaryLinesOf (analyzeRepositoryForTask envX ("x".data) taskNl)
        ≠ specSummaryLines (analyzeRepositoryForTask envX ("x".data) taskNl) := by
  refine ⟨by decide, by decide⟩

/-- C9 (amended): each positive-score candidate's block shows at most five
lines, all non-blank, taken in order (a subsequence) from the lines of its
report — specifically the non-blank lines among the first ten, capped at
five — and each output block is the numbered score line followed by that
summary (or by the indented stored text when the score is 0). -/
theorem summary_window :
    (∀ a : Str, List.Sublist (summaryLinesOf a) (splitNl a)
      ∧ (summaryLinesOf a).length ≤ 5
      ∧ ∀ x ∈ summaryLinesOf a, x ∈ splitNl a ∧ pyStrip x ≠ [])
    ∧ ∀ (i : Nat) (x : RepoScore) (xs : List RepoScore),
        renderBlocks i (x :: xs)
          = natStr i ++ ". ".data ++ x.repo ++ " (Score: ".data ++ natStr x.score
              ++ ")\n".data
            ++ (if 0 < x.score
                then List.intercalate ("\n".data) (summaryLinesOf x.analysis)
                      ++ "\n\n".data
                else "   ".data ++ x.analysis ++ "\n\n".data)
            ++ renderBlocks (i + 1) xs :=
  ⟨fun a => ⟨summaryLinesOf_sublist a, summaryLinesOf_length_le a,
      fun _ hx => summaryLinesOf_mem hx⟩,
    fun _ _ _ => rfl⟩

/-- C9 witness: the summary-line facts evaluated on repository `B`'s
report. -/
theorem summary_window_wit :
    "README Summary:".data
        ∈ splitNl (analyzeRepositoryForTask envRank ("B".data) ("zzzz".data))
    ∧ pyStrip ("README Summary:".data) ≠ [] :=
  (summary_window.1 (analyzeRepositoryForTask envRank ("B".data) ("zzzz".data))).2.2
    ("README Summary:".data) (by decide)

/-- C10 (confirmed): the analysis header embeds the task description
verbatim, so every retained token of the task occurs in the scored corpus:
every candidate's score is at least twice the number of retained tokens,
and is strictly positive as soon as one token is longer than 3 characters. -/
theorem task_echo_lower_bound (env : Env) (t rn : Str) :
    2 * ((splitWS (lowerStr t)).filter fun w => decide (3 < w.length)).length
      ≤ scoreOf env t rn
    ∧ ((splitWS (lowerStr t)).filter (fun w => decide (3 < w.length)) ≠ [] →
        0 < scoreOf env t rn) := by
  have hword : ∀ w ∈ splitWS (lowerStr t), 3 < w.length →
      1 ≤ countOcc w (lowerStr (analyzeRepositoryForTask env rn t)) := by
    intro w hw hlen
    obtain ⟨a, b, hab⟩ := splitWS_mem_parts hw
    have hne : w ≠ [] := by
      intro h0
      rw [h0] at hlen
      simp at hlen
    have hsh : lowerStr (analyzeRepositoryForTask env rn t)
        = (lowerStr (analysisPre rn) ++ a)
          ++ (w ++ (b ++ lowerStr (analysisTail env rn t))) := by
      rw [analyzeRepositoryForTask, lowerStr_append, lowerStr_append, hab]
      simp [List.append_assoc]
    rw [hsh]
    exact countOcc_pos _ _ hne
  have hmain : 2 * ((splitWS (lowerStr t)).filter
        fun w => decide (3 < w.length)).length ≤ scoreOf env t rn := by
    unfold scoreOf
    rw [scoreAnalysis_eq]
    have hks := ksumList_ge_retained (splitWS (lowerStr t))
      (lowerStr (analyzeRepositoryForTask env rn t)) hword
    omega
  refine ⟨hmain, fun hne => ?_⟩
  have hpos : 0 < ((splitWS (lowerStr t)).filter
      fun w => decide (3 < w.length)).length := List.length_pos.mpr hne
  omega

/-- C10 witness: a single retained token yields a positive score even for a
missing candidate. -/
theorem task_echo_lower_bound_wit : 0 < scoreOf envNone ("test".data) ("X".data) :=
  (task_echo_lower_bound envNone ("test".data) ("X".data)).2 (by decide)
